import Mathlib

/-!
Verification of the rippled peer-to-peer wire-message codec
(`src/ripple/overlay` and `src/ripple/basics` of the repository).

Shallow embedding conventions:
* bytes are `Nat` values (always `< 256` where produced by the code);
* buffers and scatter-gather sequences are `List Nat` / `List (List Nat)`;
* `std::size_t` arithmetic is `Nat` with an explicit `% 2 ^ 64` where the
  C++ can wrap (the varint accumulator);
* a C++ function that can `Throw` is modelled with `Option` (`none` = the
  exception escapes to the caller);
* the external LZ4 frame library (`LZ4F_compressFrame`, `LZ4F_decompress`,
  `LZ4F_compressFrameBound`) is a parameter of each definition that uses it.
-/

namespace Ripple

/-! ### Varint codec — `src/ripple/basics/varint_common.h`

The format is base-127 (not base-128): `write_varint` emits `v % 127`
digits with the `0x80` continuation bit on every byte except the last. -/

/-- Structural helper for `write_varint`: the `do/while` loop with an
explicit iteration bound (`v` itself bounds the iterations, since every
continuation step has `v ≥ 127`); the recurrence proved in
`write_varint_eq` matches the source loop exactly, and the fuel-exhausted
branch is unreachable. -/
def writeVarintAux (fuel v : Nat) : List Nat :=
  if v / 127 = 0 then [v % 127]
  else
    match fuel with
    | 0 => []
    | fuel' + 1 => (v % 127 ||| 0x80) :: writeVarintAux fuel' (v / 127)

/-- `write_varint` (varint_common.h:104-122): the bytes written for `v`,
least-significant digit first; the returned byte count is the length. -/
def write_varint (v : Nat) : List Nat :=
  writeVarintAux v v

/-- Structural helper for the scan loop of `read_varint`: `fuel` is
`buflen - (n + 1)`, the number of increments still allowed by the
`if (++n >= buflen) return 0;` bounds check. -/
def scanEndAux (buf : List Nat) (fuel n : Nat) : Option Nat :=
  if buf.getD n 0 &&& 0x80 ≠ 0 then
    match fuel with
    | 0 => none
    | fuel' + 1 => scanEndAux buf fuel' (n + 1)
  else some n

/-- The scan loop of `read_varint` (varint_common.h:63-66): advance while the
current byte has the continuation bit, bounds-checking each increment;
returns the index of the first byte without the bit. -/
def scanEnd (buf : List Nat) (buflen : Nat) (n : Nat) : Option Nat :=
  scanEndAux buf (buflen - (n + 1)) n

/-- `scanEnd` satisfies the source loop's recurrence. -/
theorem scanEnd_eq (buf : List Nat) (buflen n : Nat) :
    scanEnd buf buflen n =
      if buf.getD n 0 &&& 0x80 ≠ 0 then
        if n + 1 ≥ buflen then none else scanEnd buf buflen (n + 1)
      else some n := by
  unfold scanEnd
  rw [scanEndAux.eq_def]
  split
  · rcases hf : buflen - (n + 1) with _ | fuel
    · rw [if_pos (by omega)]
    · rw [if_neg (by omega)]
      have : buflen - (n + 1 + 1) = fuel := by omega
      rw [this]
  · rfl

/-- `writeVarintAux` does not depend on the fuel once it covers `v`. -/
theorem writeVarintAux_fuel (v : Nat) :
    ∀ f g, v ≤ f → v ≤ g → writeVarintAux f v = writeVarintAux g v := by
  induction v using Nat.strong_induction_on with
  | _ v ih =>
    intro f g hf hg
    by_cases h : v / 127 = 0
    · rw [writeVarintAux.eq_def, writeVarintAux.eq_def, if_pos h, if_pos h]
    · have hv : 127 ≤ v := by
        rcases Nat.lt_or_ge v 127 with h' | h'
        · exact absurd (Nat.div_eq_of_lt h') h
        · exact h'
      obtain ⟨f', rfl⟩ : ∃ f', f = f' + 1 := ⟨f - 1, by omega⟩
      obtain ⟨g', rfl⟩ : ∃ g', g = g' + 1 := ⟨g - 1, by omega⟩
      rw [writeVarintAux.eq_def, writeVarintAux.eq_def, if_neg h, if_neg h]
      have hlt : v / 127 < v := Nat.div_lt_self (by omega) (by omega)
      show (v % 127 ||| 0x80) :: writeVarintAux f' (v / 127) =
        (v % 127 ||| 0x80) :: writeVarintAux g' (v / 127)
      congr 1
      exact ih (v / 127) hlt f' g' (by omega) (by omega)

/-- `write_varint` satisfies the source loop's recurrence. -/
theorem write_varint_eq (v : Nat) :
    write_varint v =
      if v / 127 = 0 then [v % 127]
      else (v % 127 ||| 0x80) :: write_varint (v / 127) := by
  unfold write_varint
  by_cases h : v / 127 = 0
  · rw [writeVarintAux.eq_def, if_pos h, if_pos h]
  · have hv : 127 ≤ v := by
      rcases Nat.lt_or_ge v 127 with h' | h'
      · exact absurd (Nat.div_eq_of_lt h') h
      · exact h'
    obtain ⟨v', rfl⟩ : ∃ v', v = v' + 1 := ⟨v - 1, by omega⟩
    rw [if_neg h, writeVarintAux.eq_def, if_neg h]
    show ((v' + 1) % 127 ||| 0x80) :: writeVarintAux v' ((v' + 1) / 127) =
      ((v' + 1) % 127 ||| 0x80) :: writeVarintAux ((v' + 1) / 127) ((v' + 1) / 127)
    congr 1
    exact writeVarintAux_fuel ((v' + 1) / 127) v' ((v' + 1) / 127) (by omega) (by omega)

/-- The accumulation loop of `read_varint` (varint_common.h:76-84): fold the
digits from index `k-1` down to `0` into a `size_t` accumulator (wrapping at
`2 ^ 64`), failing if a step does not strictly increase the accumulator. -/
def readLoop (buf : List Nat) : Nat → Nat → Option Nat
  | 0, t => some t
  | k + 1, t =>
    let d := buf.getD k 0
    let t1 := (t * 127 + (d &&& 0x7f)) % 2 ^ 64
    if t1 ≤ t then none else readLoop buf k t1

/-- `read_varint` (varint_common.h:54-86): returns `some (bytes consumed,
value)`, or `none` for the error return `0` (buffer too small or overflow). -/
def read_varint (buf : List Nat) (buflen : Nat) : Option (Nat × Nat) :=
  match scanEnd buf buflen 0 with
  | none => none
  | some last =>
    if last + 1 > buflen then none
    else if last + 1 = 1 ∧ buf.getD 0 0 = 0 then some (1, 0)
    else
      match readLoop buf (last + 1) 0 with
      | none => none
      | some t => some (last + 1, t)

/-! ### Wire header — `Message::setHeader` (Message.cpp:125-138) and
`detail::parseMessageHeader` (ProtocolMessage.h:110-143). -/

/-- `Compressed` flag (Compression.h:35-38). -/
inductive Compressed where
  | On : Compressed
  | Off : Compressed
deriving DecidableEq

/-- `Algorithm::LZ4` (Compression.h:30-33); `None = 0`. -/
def algLZ4 : Nat := 1

/-- `Message::setHeader` (Message.cpp:125-138): the six header bytes for a
payload of `messageBytes` bytes.  Intermediate values are bytes (`< 256`)
so the `uint8_t` stores need no extra masking beyond the written `&&& 0xFF`. -/
def setHeader (messageBytes : Nat) (type : Nat) (compressed : Compressed)
    (comprAlgorithm : Nat) : List Nat :=
  let compression : Nat :=
    (if compressed = Compressed.On then 0xF0 else 0) &&& (0x80 ||| (comprAlgorithm <<< 4))
  [ ((messageBytes >>> 24) ||| compression) &&& 0xFF,
    (messageBytes >>> 16) &&& 0xFF,
    (messageBytes >>> 8) &&& 0xFF,
    messageBytes &&& 0xFF,
    (type >>> 8) &&& 0xFF,
    type &&& 0xFF ]

/-- `detail::MessageHeader` (ProtocolMessage.h:72-94). -/
structure MessageHeader where
  total_wire_size : Nat
  header_size : Nat
  payload_wire_size : Nat
  message_type : Nat
  compressed : Bool
  algorithm : Nat
deriving DecidableEq

/-- `detail::parseMessageHeader` (ProtocolMessage.h:110-143) over a flattened
buffer sequence; `size` is `boost::asio::buffer_size(bufs)`.  The caller
guarantees `size ≠ 0`, so reading byte 0 (`getD _ 0`) mirrors `*iter`.
The four size bytes and two type bytes cannot overflow `uint32_t` /
`uint16_t` (each byte is `< 256`), so no wrap-around is modelled. -/
def parseMessageHeader (bufs : List Nat) (size : Nat) : Option MessageHeader :=
  let b : Nat → Nat := fun i => bufs.getD i 0
  let compressed : Bool := b 0 &&& 0x80 == 0x80
  let algorithm : Nat := (b 0 &&& 0x70) >>> 4
  if b 0 &&& 0xFC == 0 || compressed then
    if size < 6 then none
    else
      let payload_wire_size : Nat :=
        (((((((0 <<< 8) + b 0) <<< 8) + b 1) <<< 8) + b 2) <<< 8) + b 3
      let payload_wire_size := payload_wire_size &&& 0x03FFFFFF
      let message_type : Nat := (((0 <<< 8) + b 4) <<< 8) + b 5
      some
        { total_wire_size := 6 + payload_wire_size
          header_size := 6
          payload_wire_size := payload_wire_size
          message_type := message_type
          compressed := compressed
          algorithm := algorithm }
  else none

/-! ### Protocol message types.

Modelled from the spec: the numeric values come from `protocol/messages.h`
(`ripple.pb.h`), which is not among the sources; the spec fixes
`manifests = 2` (scenarios S1, S4) and `ping = 3` (S2) and lists the
remaining tags by name, whose values are taken from the protocol
definition of the same era.  No claim depends on the exact values of the
other tags, only on their being routed. -/

def mtMANIFESTS : Nat := 2
def mtPING : Nat := 3
def mtCLUSTER : Nat := 5
def mtENDPOINTS : Nat := 15
def mtTRANSACTION : Nat := 30
def mtGET_LEDGER : Nat := 31
def mtLEDGER_DATA : Nat := 32
def mtPROPOSE_LEDGER : Nat := 33
def mtSTATUS_CHANGE : Nat := 34
def mtHAVE_SET : Nat := 35
def mtVALIDATION : Nat := 41
def mtGET_OBJECTS : Nat := 42
def mtGET_SHARD_INFO : Nat := 50
def mtSHARD_INFO : Nat := 51
def mtGET_PEER_SHARD_INFO : Nat := 52
def mtPEER_SHARD_INFO : Nat := 53
def mtVALIDATORLIST : Nat := 54

/-- The message types with a `case` label in the `switch` of
`invokeProtocolMessage` (ProtocolMessage.h:253-310). -/
def knownMessageTypes : List Nat :=
  [ mtMANIFESTS, mtPING, mtCLUSTER, mtGET_SHARD_INFO, mtSHARD_INFO,
    mtGET_PEER_SHARD_INFO, mtPEER_SHARD_INFO, mtENDPOINTS, mtTRANSACTION,
    mtGET_LEDGER, mtLEDGER_DATA, mtPROPOSE_LEDGER, mtSTATUS_CHANGE,
    mtHAVE_SET, mtVALIDATION, mtVALIDATORLIST, mtGET_OBJECTS ]

/-! ### Inbound demultiplexer — `invokeProtocolMessage`
(ProtocolMessage.h:218-318) and `detail::invoke` (ProtocolMessage.h:145-207). -/

/-- The handler callbacks fired by `detail::invoke` (ProtocolMessage.h:202-204)
and `invokeProtocolMessage` (ProtocolMessage.h:307), recorded as events. -/
inductive Event where
  | onMessageBegin : Nat → Nat → Event
  | onMessage : Event
  | onMessageEnd : Nat → Event
  | onMessageUnknown : Nat → Event
deriving DecidableEq

/-- The protobuf payload parser is external (`T::ParseFromArray` /
`T::ParseFromZeroCopyStream`); a `Handler` carries it as an abstract
predicate deciding, from the message type, the parsed header and the full
buffer contents, whether the typed payload parses. -/
structure Handler where
  parse : Nat → MessageHeader → List Nat → Bool

/-- Boost error codes produced by `invokeProtocolMessage`
(ProtocolMessage.h:242 and :315); the result's error component is `none`
for the default-constructed (success) code. -/
inductive ErrC where
  | message_size : ErrC
  | bad_message : ErrC
deriving DecidableEq

/-- `detail::invoke<T>` (ProtocolMessage.h:145-207): parse the payload
(decompressing first when the header says so — both paths end in the
abstract protobuf parse), then fire the three handler callbacks in order.
Returns the success flag and the events fired. -/
def invoke (mt : Nat) (header : MessageHeader) (buffers : List Nat)
    (handler : Handler) : Bool × List Event :=
  if handler.parse mt header buffers then
    (true,
     [Event.onMessageBegin header.message_type header.payload_wire_size,
      Event.onMessage,
      Event.onMessageEnd header.message_type])
  else (false, [])

/-- The `switch` on `header.message_type` (ProtocolMessage.h:253-310): every
listed tag dispatches through `detail::invoke`; an unknown tag fires
`onMessageUnknown` and counts as success. -/
def dispatch (header : MessageHeader) (buffers : List Nat)
    (handler : Handler) : Bool × List Event :=
  if header.message_type ∈ knownMessageTypes then
    invoke header.message_type header buffers handler
  else (true, [Event.onMessageUnknown header.message_type])

/-- `megabytes` (basics/ByteUtilities.h, declaration only in the sources).
Modelled from the spec: `megabytes(64)` is the 64 MiB payload cap. -/
def megabytes (n : Nat) : Nat := n * 1024 * 1024

/-- The part of `invokeProtocolMessage` after a header was parsed
(ProtocolMessage.h:236-317): the 64 MiB gate, the completeness check, the
dispatch, and the assembly of `(bytes consumed, error code)`. -/
def processParsedHeader (header : MessageHeader) (buffers : List Nat)
    (size : Nat) (handler : Handler) : (Nat × Option ErrC) × List Event :=
  if header.payload_wire_size > megabytes 64 then
    ((0, some ErrC.message_size), [])
  else if header.total_wire_size > size then
    ((0, none), [])
  else
    let r := dispatch header buffers handler
    ((header.total_wire_size, if r.1 then none else some ErrC.bad_message), r.2)

/-- `invokeProtocolMessage` (ProtocolMessage.h:218-318): at most one message
per call; returns `(bytes consumed, error code)` together with the handler
events fired. -/
def invokeProtocolMessage (buffers : List Nat) (handler : Handler) :
    (Nat × Option ErrC) × List Event :=
  let size := buffers.length
  if size = 0 then ((0, none), [])
  else
    match parseMessageHeader buffers size with
    | none => ((0, none), [])
    | some header => processParsedHeader header buffers size handler

/-! ### Outbound compression — `compression::compress` (Compression.h:77-93),
`lz4fCompress` (CompressionAlgorithms.h:49-78), `Message::compress`
(Message.cpp:51-116) and `Message::getBuffer` (Message.h:65-78). -/

/-- `std::vector::resize`: truncate or zero-extend to `n` elements. -/
def resizeList (l : List Nat) (n : Nat) : List Nat :=
  l.take n ++ List.replicate (n - l.length) 0

/-- `memcpy(l.data() + off, src.data(), src.length)`. -/
def writeAt (l : List Nat) (off : Nat) (src : List Nat) : List Nat :=
  l.take off ++ src ++ l.drop (off + src.length)

/-- `lz4fCompress` (CompressionAlgorithms.h:49-78), instantiated with the
`BufferFactory` of `Message::compress` (Message.cpp:101-104), which resizes
`bufferCompressed_` to `in_size + headerBytes` and hands out the region at
offset 6.  `frameFn` models `LZ4F_compressFrame` (`none` = library error)
and `bound` models `LZ4F_compressFrameBound(inSize)`.  Returns the buffer
state and `some (bytes written)`, or `none` when the function throws —
note that the throw from a frame error happens after the factory already
resized the buffer. -/
def lz4fCompress (payload : List Nat) (frameFn : List Nat → Option (List Nat))
    (bound : Nat) (bufC : List Nat) : List Nat × Option Nat :=
  if payload.length > 0xFFFFFFFF then (bufC, none)
  else
    let vi := write_varint payload.length
    let buf1 := resizeList bufC (vi.length + bound + 6)
    let buf2 := writeAt buf1 6 vi
    match frameFn payload with
    | none => (buf2, none)
    | some frame =>
      (writeAt buf2 (6 + vi.length) frame, some (vi.length + frame.length))

/-- `compression::compress` (Compression.h:77-93): try/catch wrapper around
`lz4fCompress`; any exception — including the `Throw` for an algorithm other
than LZ4 — yields the return value `0`. -/
def compressionCompress (payload : List Nat)
    (frameFn : List Nat → Option (List Nat)) (bound : Nat) (bufC : List Nat)
    (algorithm : Nat) : List Nat × Nat :=
  if algorithm = algLZ4 then
    match lz4fCompress payload frameFn bound bufC with
    | (b, none) => (b, 0)
    | (b, some n) => (b, n)
  else (bufC, 0)

/-- `Message` (Message.h:51-106 / Message.cpp): the framed uncompressed
buffer, the lazily filled compressed buffer, and the once-guard flag. -/
structure Message where
  buffer : List Nat
  bufferCompressed : List Nat
  alreadyRequested : Bool
deriving DecidableEq

/-- The `Message` constructor (Message.cpp:30-49): header at offset 0
(`compressed = Off`, default algorithm argument LZ4), serialized payload at
offset 6.  The serialized payload is the abstract byte list `payload`. -/
def mkMessage (payload : List Nat) (type : Nat) : Message :=
  { buffer := setHeader payload.length type Compressed.Off algLZ4 ++ payload
    bufferCompressed := []
    alreadyRequested := false }

/-- `getType` (declared in an earlier revision of Message.h, not among the
sources).  Modelled from the spec: "Recover the type from the header bytes"
— the type is the big-endian 16-bit field in header bytes 4..5. -/
def getType (buf : List Nat) : Nat :=
  ((buf.getD 4 0) <<< 8) + buf.getD 5 0

/-- The `compressible` policy lambda of `Message::compress`
(Message.cpp:66-92). -/
def compressible (type : Nat) (messageBytes : Nat) : Bool :=
  if messageBytes ≤ 70 then false
  else
    type = mtMANIFESTS ∨ type = mtENDPOINTS ∨ type = mtTRANSACTION ∨
    type = mtGET_LEDGER ∨ type = mtLEDGER_DATA ∨ type = mtGET_OBJECTS ∨
    type = mtVALIDATORLIST

/-- `Message::compress` (Message.cpp:51-116): decide compressibility, run the
codec, and keep the compressed framing only under `compressedSize <
messageBytes`; otherwise clear the compressed buffer. -/
def Message.compressM (m : Message) (frameFn : List Nat → Option (List Nat))
    (bound : Nat) : Message :=
  if m.alreadyRequested then m
  else
    let messageBytes := m.buffer.length - 6
    let type := getType m.buffer
    if compressible type messageBytes then
      let payload := m.buffer.drop 6
      let r := compressionCompress payload frameFn bound m.bufferCompressed algLZ4
      if r.2 < messageBytes then
        { m with
          bufferCompressed :=
            writeAt (resizeList r.1 (6 + r.2)) 0
              (setHeader r.2 type Compressed.On algLZ4)
          alreadyRequested := true }
      else { m with bufferCompressed := resizeList r.1 0, alreadyRequested := true }
    else { m with alreadyRequested := true }

/-- `Message::getBuffer` (Message.h:65-78): uncompressed buffer on `Off`;
on `On`, ensure `compress` ran once, then the compressed buffer when
non-empty, else fall back to the uncompressed buffer.  Also returns the
(possibly updated) message. -/
def Message.getBuffer (m : Message) (compressed : Compressed)
    (frameFn : List Nat → Option (List Nat)) (bound : Nat) :
    List Nat × Message :=
  if compressed = Compressed.Off then (m.buffer, m)
  else
    let m1 := if m.alreadyRequested then m else m.compressM frameFn bound
    (if m1.bufferCompressed.length > 0 then m1.bufferCompressed else m1.buffer, m1)

/-! ### Chunked input stream — decompression side.

Modelled from the spec: `ZeroCopyInputStream` (overlay/impl/ZeroCopyStream.h,
not among the sources) is a pull-based cursor over a scatter-gather buffer:
`Next` returns the rest of the segment holding the cursor and advances to
the segment's end, `BackUp(n)` moves the cursor back `n` bytes, `Skip(n)`
advances it `n` bytes. -/

structure ZeroCopyStream where
  chunks : List (List Nat)
  pos : Nat
deriving DecidableEq

/-- The flattened byte sequence of the stream. -/
def streamData (s : ZeroCopyStream) : List Nat := s.chunks.flatten

/-- The absolute offset of the end of the segment containing `pos`
(empty segments are transparent); `none` when `pos` is at or past the end. -/
def nextBoundary : List (List Nat) → Nat → Option Nat
  | [], _ => none
  | c :: cs, pos =>
    if pos < c.length then some c.length
    else
      match nextBoundary cs (pos - c.length) with
      | none => none
      | some b => some (c.length + b)

/-- `Next(&data, &size)`: the bytes from the cursor to its segment's end. -/
def streamNext (s : ZeroCopyStream) : Option (List Nat × ZeroCopyStream) :=
  match nextBoundary s.chunks s.pos with
  | none => none
  | some b =>
    some (((streamData s).drop s.pos).take (b - s.pos), { s with pos := b })

/-- `BackUp(count)`. -/
def streamBackUp (s : ZeroCopyStream) (count : Nat) : ZeroCopyStream :=
  { s with pos := s.pos - count }

/-- `Skip(count)`. -/
def streamSkip (s : ZeroCopyStream) (count : Nat) : ZeroCopyStream :=
  { s with pos := s.pos + count }

theorem nextBoundary_gt {cs : List (List Nat)} {pos b : Nat}
    (h : nextBoundary cs pos = some b) : pos < b := by
  induction cs generalizing pos b with
  | nil => simp [nextBoundary] at h
  | cons c cs ih =>
    simp only [nextBoundary] at h
    split at h
    · simp only [Option.some.injEq] at h
      omega
    · revert h
      match hb : nextBoundary cs (pos - c.length) with
      | none => simp
      | some b' =>
        intro h
        have := ih hb
        simp only [Option.some.injEq] at h
        omega

theorem nextBoundary_le {cs : List (List Nat)} {pos b : Nat}
    (h : nextBoundary cs pos = some b) : b ≤ cs.flatten.length := by
  induction cs generalizing pos b with
  | nil => simp [nextBoundary] at h
  | cons c cs ih =>
    simp only [nextBoundary] at h
    split at h
    · simp only [Option.some.injEq] at h
      simp only [List.flatten_cons, List.length_append]
      omega
    · revert h
      match hb : nextBoundary cs (pos - c.length) with
      | none => simp
      | some b' =>
        intro h
        have := ih hb
        simp only [Option.some.injEq] at h
        simp only [List.flatten_cons, List.length_append]
        omega

theorem nextBoundary_some {cs : List (List Nat)} {pos : Nat}
    (h : pos < cs.flatten.length) : ∃ b, nextBoundary cs pos = some b := by
  induction cs generalizing pos with
  | nil => simp at h
  | cons c cs ih =>
    simp only [nextBoundary]
    by_cases hc : pos < c.length
    · exact ⟨c.length, by simp [hc]⟩
    · simp only [List.flatten_cons, List.length_append] at h
      obtain ⟨b, hb⟩ := ih (show pos - c.length < cs.flatten.length by omega)
      exact ⟨c.length + b, by simp [hc, hb]⟩

theorem streamNext_eq {s : ZeroCopyStream} {data : List Nat}
    {s' : ZeroCopyStream} (h : streamNext s = some (data, s')) :
    data = ((streamData s).drop s.pos).take (s'.pos - s.pos) ∧
    s'.chunks = s.chunks ∧ s.pos < s'.pos ∧
    s'.pos ≤ (streamData s).length ∧
    data.length = s'.pos - s.pos := by
  revert h
  unfold streamNext
  match hb : nextBoundary s.chunks s.pos with
  | none => simp
  | some b =>
    intro h
    have h1 := nextBoundary_gt hb
    have h2 := nextBoundary_le hb
    simp only [Option.some.injEq, Prod.mk.injEq] at h
    obtain ⟨hd, hs⟩ := h
    subst hd; subst hs
    refine ⟨rfl, rfl, h1, ?_, ?_⟩
    · simpa [streamData] using h2
    · have hlen : (streamData s).length = s.chunks.flatten.length := rfl
      simp only [List.length_take, List.length_drop]
      omega

theorem streamNext_ne_nil {s : ZeroCopyStream} {data : List Nat}
    {s' : ZeroCopyStream} (h : streamNext s = some (data, s')) :
    0 < data.length := by
  have := streamNext_eq h
  omega

/-- Structural helper for `copyStream`: `fuel` bounds the loop iterations
(`size` itself suffices, since every iteration copies at least one byte);
the recurrence proved in `copyStream_eq` matches the source loop exactly,
and the fuel-exhausted branch is unreachable. -/
def copyStreamAux (fuel : Nat) (s : ZeroCopyStream) (size : Nat) :
    List Nat × List Nat × ZeroCopyStream × Bool :=
  if size = 0 then ([], [], s, true)
  else
    match streamNext s with
    | none => ([], [], s, false)
    | some (data, s') =>
      match fuel with
      | 0 => ([], [], s, false)
      | fuel' + 1 =>
        let sz := if data.length ≥ size then size else data.length
        let r := copyStreamAux fuel' s' (size - sz)
        (data.take sz ++ r.1, data.length :: r.2.1, r.2.2.1, r.2.2.2)

/-- `copyStream` (CompressionAlgorithms.h:89-106): copy `size` bytes from the
stream (recording each pulled segment's full length in `usedSize`), stopping
early when the stream runs dry.  Returns the copied bytes, the recorded
segment lengths, the advanced stream, and `copied == size`. -/
def copyStream (s : ZeroCopyStream) (size : Nat) :
    List Nat × List Nat × ZeroCopyStream × Bool :=
  copyStreamAux size s size

/-- `copyStreamAux` does not depend on the fuel once it covers `size`. -/
theorem copyStreamAux_fuel :
    ∀ size f g s, size ≤ f → size ≤ g →
      copyStreamAux f s size = copyStreamAux g s size := by
  intro size
  induction size using Nat.strong_induction_on with
  | _ size ih =>
    intro f g s hf hg
    by_cases h0 : size = 0
    · rw [copyStreamAux, copyStreamAux, if_pos h0, if_pos h0]
    · rw [copyStreamAux, copyStreamAux, if_neg h0, if_neg h0]
      match hn : streamNext s with
      | none => rfl
      | some (data, s') =>
        have hdata := streamNext_ne_nil hn
        obtain ⟨f', rfl⟩ : ∃ f', f = f' + 1 := ⟨f - 1, by omega⟩
        obtain ⟨g', rfl⟩ : ∃ g', g = g' + 1 := ⟨g - 1, by omega⟩
        simp only
        have hsz : 1 ≤ (if data.length ≥ size then size else data.length) := by
          split <;> omega
        have hr :
            copyStreamAux f' s' (size - (if data.length ≥ size then size else data.length)) =
            copyStreamAux g' s' (size - (if data.length ≥ size then size else data.length)) :=
          ih _ (by omega) f' g' s' (by omega) (by omega)
        rw [hr]

/-- `copyStream` satisfies the source loop's recurrence. -/
theorem copyStream_eq (s : ZeroCopyStream) (size : Nat) :
    copyStream s size =
      if size = 0 then ([], [], s, true)
      else
        match streamNext s with
        | none => ([], [], s, false)
        | some (data, s') =>
          let sz := if data.length ≥ size then size else data.length
          let r := copyStream s' (size - sz)
          (data.take sz ++ r.1, data.length :: r.2.1, r.2.2.1, r.2.2.2) := by
  unfold copyStream
  by_cases h0 : size = 0
  · rw [copyStreamAux, if_pos h0, if_pos h0]
  · rw [copyStreamAux, if_neg h0, if_neg h0]
    match hn : streamNext s with
    | none => rfl
    | some (data, s') =>
      have hdata := streamNext_ne_nil hn
      obtain ⟨z, rfl⟩ : ∃ z, size = z + 1 := ⟨size - 1, by omega⟩
      simp only
      have hsz : 1 ≤ (if data.length ≥ z + 1 then z + 1 else data.length) := by
        split <;> omega
      have hr :
          copyStreamAux z s' ((z + 1) - (if data.length ≥ z + 1 then z + 1 else data.length)) =
          copyStreamAux ((z + 1) - (if data.length ≥ z + 1 then z + 1 else data.length)) s'
            ((z + 1) - (if data.length ≥ z + 1 then z + 1 else data.length)) :=
        copyStreamAux_fuel _ _ _ _ (by omega) (by omega)
      rw [hr]

/-- `getOriginalSize` (CompressionAlgorithms.h:113-150): peek enough bytes
for a full varint (`varint_traits<uint32_t>::max = 5`), decode it, then
rewind every recorded segment length in reverse order and skip exactly the
varint's byte count.  `none` models the `doThrow` exits. -/
def getOriginalSize (s : ZeroCopyStream) : Option (Nat × ZeroCopyStream) :=
  match streamNext s with
  | none => none
  | some (data, s1) =>
    let gathered : Option (List Nat × List Nat × ZeroCopyStream) :=
      if data.length < 5 then
        let r := copyStream s1 (5 - data.length)
        if r.2.2.2 then some (data ++ r.1, data.length :: r.2.1, r.2.2.1)
        else none
      else some (data, [data.length], s1)
    match gathered with
    | none => none
    | some (p, usedSize, s2) =>
      match read_varint p 5 with
      | none => none
      | some (originalSizeBytes, originalSize) =>
        let s3 := usedSize.reverse.foldl (fun st n => streamBackUp st n) s2
        some (originalSize, streamSkip s3 originalSizeBytes)

/-- `nextChunk` (CompressionAlgorithms.h:162-189): pull the next segment,
prepending the cached residual bytes when present and capping at the
remaining `inSize` compressed bytes.  `prevChunk` carries the caller's
`compressedChunk`/`chunkSize` locals, which the C++ leaves stale when
`Next` fails.  Returns `(presented chunk, stream, new cache contents)`. -/
def nextChunk (s : ZeroCopyStream) (inSize : Nat) (prevChunk : List Nat)
    (buffer : List Nat) : Option (List Nat × ZeroCopyStream × List Nat) :=
  match streamNext s with
  | none =>
    if buffer = [] then none
    else
      let sz := buffer.length
      let chunkSize :=
        if prevChunk.length + sz ≤ inSize then prevChunk.length else inSize - sz
      let buffer' := buffer ++ prevChunk.take chunkSize
      some (buffer', s, buffer')
  | some (data, s') =>
    if buffer = [] then
      some (data.take (if data.length ≤ inSize then data.length else inSize), s', [])
    else
      let sz := buffer.length
      let chunkSize :=
        if data.length + sz ≤ inSize then data.length else inSize - sz
      let buffer' := buffer ++ data.take chunkSize
      some (buffer', s', buffer')

/-- `updateBuffer` (CompressionAlgorithms.h:198-224): stash the unconsumed
tail of the presented chunk in the cache (both the `memmove` and the
`memcpy` case yield the tail), clearing it when everything was consumed. -/
def updateBuffer (srcSize : Nat) (chunk : List Nat) : List Nat :=
  if srcSize ≠ chunk.length then chunk.drop srcSize else []

/-- The decompression loop of `lz4fDecompress`
(CompressionAlgorithms.h:258-276) with an explicit fuel bound on the number
of iterations; `lz4d chunk dstCap` models `LZ4F_decompress` and returns
`some (dstSize, srcSize)` or `none` for a library error.  Running out of
fuel is reported as failure; every real execution consumes at least one
input byte per iteration (`srcSize == 0` throws), so `inSize + 1` units of
fuel cover it. -/
def lz4fDecompressLoop (lz4d : List Nat → Nat → Option (Nat × Nat))
    (fuel : Nat) (s : ZeroCopyStream) (inSize originalSize decompressedSize : Nat)
    (prevChunk buffer : List Nat) : Option Nat :=
  if decompressedSize = originalSize then some originalSize
  else
    match nextChunk s inSize prevChunk buffer with
    | none => none
    | some (chunk, s', _) =>
      match lz4d chunk (originalSize - decompressedSize) with
      | none => none
      | some (dstSize, srcSize) =>
        if srcSize = 0 then none
        else
          match fuel with
          | 0 => none
          | fuel' + 1 =>
            lz4fDecompressLoop lz4d fuel' s' (inSize - srcSize) originalSize
              (decompressedSize + dstSize) chunk (updateBuffer srcSize chunk)

/-- `lz4fDecompress` (CompressionAlgorithms.h:236-285): read the varint
original size, then loop until that many bytes were produced; any `doThrow`
(varint failure, library error, zero input consumed, insufficient input)
is `none`. -/
def lz4fDecompress (lz4d : List Nat → Nat → Option (Nat × Nat))
    (s : ZeroCopyStream) (inSize : Nat) : Option Nat :=
  match getOriginalSize s with
  | none => none
  | some (originalSize, s') =>
    lz4fDecompressLoop lz4d (inSize + 1) s' inSize originalSize 0 [] []

/-- `compression::decompress` (Compression.h:50-66): try/catch wrapper around
`lz4fDecompress`; any exception — including the `Throw` for an algorithm
other than LZ4 — yields the return value `0`. -/
def compressionDecompress (lz4d : List Nat → Nat → Option (Nat × Nat))
    (s : ZeroCopyStream) (inSize : Nat) (algorithm : Nat) : Nat :=
  if algorithm = algLZ4 then
    match lz4fDecompress lz4d s inSize with
    | none => 0
    | some n => n
  else 0

/-! ## Byte-level helper lemmas -/

theorem and255 (x : Nat) : x &&& 255 = x % 256 := by
  have := Nat.and_pow_two_sub_one_eq_mod x 8
  norm_num at this
  exact this

theorem and127 (x : Nat) : x &&& 127 = x % 128 := by
  have := Nat.and_pow_two_sub_one_eq_mod x 7
  norm_num at this
  exact this

theorem andMask26 (x : Nat) : x &&& 0x03FFFFFF = x % 2 ^ 26 := by
  have := Nat.and_pow_two_sub_one_eq_mod x 26
  norm_num at this
  exact this

theorem fin4_or144 : ∀ y : Fin 4, (y.val ||| 144) = y.val + 144 := by decide

theorem fin4_and252 : ∀ y : Fin 4, y.val &&& 252 = 0 := by decide

theorem fin4_and112 : ∀ y : Fin 4, y.val &&& 112 = 0 := by decide

theorem fin4_and128 : ∀ y : Fin 4, y.val &&& 128 = 0 := by decide

theorem fin4_144_and128 : ∀ y : Fin 4, (y.val + 144) &&& 128 = 128 := by decide

theorem fin4_144_and112_shr : ∀ y : Fin 4, ((y.val + 144) &&& 112) >>> 4 = 1 := by
  decide

theorem fin4_144_and252 : ∀ y : Fin 4, (y.val + 144) &&& 252 ≠ 0 := by decide

/-! ## Header encode/decode -/

theorem setHeader_length (s t : Nat) (c : Compressed) (a : Nat) :
    (setHeader s t c a).length = 6 := rfl

/-- Parsing the six bytes of an uncompressed header (any algorithm argument:
the compression byte is zero) followed by arbitrary bytes recovers the size
and the type, with `compressed = false` and `algorithm = 0`. -/
theorem parseMessageHeader_setHeader_off (s t a : Nat) (rest : List Nat)
    (size : Nat) (hs : s ≤ 0x03FFFFFF) (ht : t < 65536) (hsize : 6 ≤ size) :
    parseMessageHeader (setHeader s t Compressed.Off a ++ rest) size =
      some ⟨6 + s, 6, s, t, false, 0⟩ := by
  have hA : s >>> 24 < 4 := by
    rw [Nat.shiftRight_eq_div_pow]
    omega
  simp only [setHeader, parseMessageHeader, List.cons_append, List.nil_append,
    List.getD_cons_zero, List.getD_cons_succ]
  simp only [show (if Compressed.Off = Compressed.On then 0xF0 else 0) = 0 from rfl,
    Nat.zero_and, Nat.or_zero]
  rw [and255 (s >>> 24), Nat.mod_eq_of_lt (by omega)]
  rw [show s >>> 24 &&& 252 = 0 from fin4_and252 ⟨s >>> 24, hA⟩]
  rw [show s >>> 24 &&& 128 = 0 from fin4_and128 ⟨s >>> 24, hA⟩]
  simp only [beq_self_eq_true, Bool.true_or, if_true, show ((0 : Nat) == 128) = false from rfl]
  rw [if_neg (by omega)]
  rw [show s >>> 24 &&& 112 = 0 from fin4_and112 ⟨s >>> 24, hA⟩]
  simp only [Nat.zero_shiftRight, Nat.zero_shiftLeft, Nat.zero_add,
    Nat.shiftLeft_eq, Nat.shiftRight_eq_div_pow, and255, andMask26,
    Option.some.injEq, MessageHeader.mk.injEq]
  norm_num
  omega

/-- Parsing the six bytes of a compressed header (algorithm argument LZ4)
followed by arbitrary bytes recovers the size and the type, with
`compressed = true` and `algorithm = 1`. -/
theorem parseMessageHeader_setHeader_on (s t : Nat) (rest : List Nat)
    (size : Nat) (hs : s ≤ 0x03FFFFFF) (ht : t < 65536) (hsize : 6 ≤ size) :
    parseMessageHeader (setHeader s t Compressed.On algLZ4 ++ rest) size =
      some ⟨6 + s, 6, s, t, true, 1⟩ := by
  have hA : s >>> 24 < 4 := by
    rw [Nat.shiftRight_eq_div_pow]
    omega
  simp only [setHeader, parseMessageHeader, List.cons_append, List.nil_append,
    List.getD_cons_zero, List.getD_cons_succ, algLZ4]
  rw [show ((if True then 240 else 0 : Nat) &&& (128 ||| 1 <<< 4)) = 144 by decide]
  rw [show s >>> 24 ||| 144 = s >>> 24 + 144 from fin4_or144 ⟨s >>> 24, hA⟩]
  rw [and255 (s >>> 24 + 144), Nat.mod_eq_of_lt (by omega)]
  rw [show s >>> 24 + 144 &&& 128 = 128 from fin4_144_and128 ⟨s >>> 24, hA⟩]
  simp only [beq_self_eq_true, Bool.or_true, if_true]
  rw [if_neg (by omega)]
  rw [show (s >>> 24 + 144 &&& 112) >>> 4 = 1 from fin4_144_and112_shr ⟨s >>> 24, hA⟩]
  simp only [Nat.zero_shiftLeft, Nat.zero_add, Nat.shiftLeft_eq,
    Nat.shiftRight_eq_div_pow, and255, andMask26,
    Option.some.injEq, MessageHeader.mk.injEq]
  norm_num
  omega

/-- Any successfully parsed header has `header_size = 6`,
`total_wire_size = 6 + payload_wire_size`, and a payload size capped by the
26-bit mask. -/
theorem parseMessageHeader_shape {bufs : List Nat} {size : Nat}
    {hdr : MessageHeader} (h : parseMessageHeader bufs size = some hdr) :
    hdr.header_size = 6 ∧ hdr.total_wire_size = 6 + hdr.payload_wire_size ∧
    hdr.payload_wire_size ≤ 0x03FFFFFF := by
  simp only [parseMessageHeader] at h
  split at h
  · split at h
    · simp at h
    · rw [Option.some.injEq] at h
      subst h
      exact ⟨rfl, rfl, Nat.and_le_right⟩
  · simp at h

/-- C4: for every payload size `≤ 0x03FFFFFF`, every 16-bit message type and
both compression states (Off parsing back algorithm 0, On with LZ4 = 1),
parsing the six bytes written by `setHeader` reproduces the payload size,
the type, the compressed flag and the algorithm, and fills
`header_size = 6` and `total_wire_size = 6 + payload_size`. -/
theorem c4_header_roundtrip (s t : Nat) (hs : s ≤ 0x03FFFFFF)
    (ht : t < 65536) :
    parseMessageHeader (setHeader s t Compressed.Off algLZ4) 6 =
      some ⟨6 + s, 6, s, t, false, 0⟩ ∧
    parseMessageHeader (setHeader s t Compressed.On algLZ4) 6 =
      some ⟨6 + s, 6, s, t, true, 1⟩ := by
  constructor
  · simpa using parseMessageHeader_setHeader_off s t algLZ4 [] 6 hs ht (by omega)
  · simpa using parseMessageHeader_setHeader_on s t [] 6 hs ht (by omega)

/-- Witness for C4 at `size = 200`, `type = 2`. -/
theorem c4_witness :
    parseMessageHeader (setHeader 200 2 Compressed.Off algLZ4) 6 =
      some ⟨206, 6, 200, 2, false, 0⟩ ∧
    parseMessageHeader (setHeader 200 2 Compressed.On algLZ4) 6 =
      some ⟨206, 6, 200, 2, true, 1⟩ :=
  c4_header_roundtrip 200 2 (by norm_num) (by norm_num)

/-- C2: the demultiplexer enforces the 64 MiB payload cap: any parsed header
carries `payload_wire_size ≤ 64 MiB` (the 26-bit size field cannot even
express a larger value), and the post-parse stage returns
`(0, ErrMessageSize)` for any header whose declared payload exceeds the
cap, before touching the payload. -/
theorem c2_payload_size_cap :
    (∀ bufs size hdr, parseMessageHeader bufs size = some hdr →
      hdr.payload_wire_size ≤ megabytes 64) ∧
    (∀ hdr bufs size handler, megabytes 64 < hdr.payload_wire_size →
      processParsedHeader hdr bufs size handler =
        ((0, some ErrC.message_size), [])) := by
  constructor
  · intro bufs size hdr h
    have := (parseMessageHeader_shape h).2.2
    unfold megabytes
    omega
  · intro hdr bufs size handler h
    unfold processParsedHeader
    rw [if_pos h]

/-- Witness for C2: a parsed 5-byte-payload header is below the cap, and a
(synthetic) header declaring `64 MiB + 1` is rejected with the
message-size error. -/
theorem c2_witness :
    (⟨11, 6, 5, 3, false, 0⟩ : MessageHeader).payload_wire_size ≤ megabytes 64 ∧
    processParsedHeader ⟨6 + 67108865, 6, 67108865, 3, false, 0⟩ [] 0
        ⟨fun _ _ _ => true⟩ = ((0, some ErrC.message_size), []) :=
  ⟨c2_payload_size_cap.1 [0, 0, 0, 5, 0, 3] 6 ⟨11, 6, 5, 3, false, 0⟩ (by decide),
   c2_payload_size_cap.2 ⟨6 + 67108865, 6, 67108865, 3, false, 0⟩ [] 0
     ⟨fun _ _ _ => true⟩ (by norm_num [megabytes])⟩

/-- C3: the demultiplexer consumes all-or-nothing: either zero bytes (too
few bytes, malformed header, over-cap size, or incomplete message) or
exactly `header_size + payload_size = 6 + payload_size` of the parsed
header; in the nonzero case the error is `bad_message` exactly when the
dispatched payload parse failed, and no error exactly on success. -/
theorem c3_all_or_nothing (buffers : List Nat) (handler : Handler) :
    (invokeProtocolMessage buffers handler).1.1 = 0 ∨
    ∃ hdr, parseMessageHeader buffers buffers.length = some hdr ∧
      (invokeProtocolMessage buffers handler).1.1 = 6 + hdr.payload_wire_size ∧
      hdr.total_wire_size = hdr.header_size + hdr.payload_wire_size ∧
      ((invokeProtocolMessage buffers handler).1.2 = some ErrC.bad_message ↔
        (dispatch hdr buffers handler).1 = false) ∧
      ((invokeProtocolMessage buffers handler).1.2 = none ↔
        (dispatch hdr buffers handler).1 = true) := by
  unfold invokeProtocolMessage
  by_cases hz : buffers.length = 0
  · left
    simp [hz]
  · simp only [if_neg hz]
    match hp : parseMessageHeader buffers buffers.length with
    | none => left; rfl
    | some hdr =>
      have hshape := parseMessageHeader_shape hp
      unfold processParsedHeader
      by_cases hcap : hdr.payload_wire_size > megabytes 64
      · left
        simp [hcap]
      · by_cases hincomplete : hdr.total_wire_size > buffers.length
        · left
          simp [hcap, hincomplete]
        · right
          refine ⟨hdr, rfl, ?_⟩
          simp only [if_neg hcap, if_neg hincomplete]
          cases hsucc : (dispatch hdr buffers handler).1 <;>
            simp [hsucc, hshape.1, hshape.2.1]

/-- C7 counterexample: on the spec's own scenario input
`\x04\x00\x00\x00\x00\x02` (reserved bit set, compressed clear) the code
returns `(0, Ok)` — the error component is the success code, not a
`HeaderReserved` error. -/
theorem c7_counterexample :
    invokeProtocolMessage [4, 0, 0, 0, 0, 2] ⟨fun _ _ _ => true⟩ =
      ((0, none), []) := by decide

/-- C7 amended: an input whose first byte has a reserved bit (bits 3..2)
set and the compressed flag clear yields bytes-consumed `0`, no error code
at all (the malformed header is treated like "need more bytes"), and no
handler dispatch. -/
theorem c7_reserved_bits_return_ok (bufs : List Nat) (handler : Handler)
    (hres : bufs.getD 0 0 &&& 0x0C ≠ 0) (hcmp : bufs.getD 0 0 &&& 0x80 = 0) :
    invokeProtocolMessage bufs handler = ((0, none), []) := by
  have hfc : bufs.getD 0 0 &&& 0xFC ≠ 0 := by
    intro h0
    apply hres
    have h2 : bufs.getD 0 0 &&& 0x0C = (bufs.getD 0 0 &&& 0xFC) &&& 0x0C := by
      rw [Nat.and_assoc]
      congr 1
    rw [h2, h0, Nat.zero_and]
  unfold invokeProtocolMessage
  by_cases hz : bufs.length = 0
  · simp [hz]
  · simp only [if_neg hz]
    have hparse : parseMessageHeader bufs bufs.length = none := by
      unfold parseMessageHeader
      rw [if_neg]
      simp only [Bool.or_eq_true, beq_iff_eq, not_or]
      exact ⟨hfc, by rw [hcmp]; decide⟩
    rw [hparse]

/-- Witness for C7's amended statement at the scenario input. -/
theorem c7_witness :
    invokeProtocolMessage [4, 0, 0, 0, 0, 2] ⟨fun _ _ _ => false⟩ =
      ((0, none), []) :=
  c7_reserved_bits_return_ok [4, 0, 0, 0, 0, 2] ⟨fun _ _ _ => false⟩
    (by decide) (by decide)

/-- C8 counterexample: a compressed header carrying the unknown algorithm
value 7 is accepted by `parseMessageHeader` (a header is returned), not
rejected as the claim states. -/
theorem c8_counterexample :
    parseMessageHeader [0xF0, 0, 0, 0, 0, 0] 6 =
      some ⟨6, 6, 0, 0, true, 7⟩ := by decide

/-- C8 amended: `parseMessageHeader` accepts every header whose compressed
flag is set regardless of the 3-bit algorithm field, which is simply decoded
from bits 6..4; no known-algorithm validation happens at parse time. -/
theorem c8_compressed_any_algorithm (bufs : List Nat) (size : Nat)
    (hsize : 6 ≤ size) (hc : bufs.getD 0 0 &&& 0x80 = 0x80) :
    ∃ hdr, parseMessageHeader bufs size = some hdr ∧
      hdr.compressed = true ∧
      hdr.algorithm = (bufs.getD 0 0 &&& 0x70) >>> 4 := by
  simp only [parseMessageHeader, List.getD_eq_getElem?_getD] at *
  rw [if_pos, if_neg (by omega)]
  · exact ⟨_, rfl, by simp [hc], rfl⟩
  · simp [hc]

/-- Witness for C8's amended statement at the counterexample input. -/
theorem c8_witness :
    ∃ hdr, parseMessageHeader [0xF0, 0, 0, 0, 0, 0] 6 = some hdr ∧
      hdr.compressed = true ∧
      hdr.algorithm = (([0xF0, 0, 0, 0, 0, 0] : List Nat).getD 0 0 &&& 0x70) >>> 4 :=
  c8_compressed_any_algorithm [0xF0, 0, 0, 0, 0, 0] 6 (by omega) (by decide)

/-- C1 (code bug): with a compressible message (type 2, 71-byte payload)
whose LZ4 compress call fails (`compress` returns 0), `Message::compress`
does not leave `bufferCompressed_` empty: `0 < messageBytes` passes the
`compressedSize < messageBytes` test, so the code stores a 6-byte
compressed-flagged frame with payload size 0, and `getBuffer(On)` returns
it instead of falling back to the uncompressed buffer. -/
theorem c1_compress_failure_keeps_nonempty_buffer :
    (Message.compressM (mkMessage (List.replicate 71 65) mtMANIFESTS)
        (fun _ => none) 100).bufferCompressed = [144, 0, 0, 0, 0, 2] ∧
    (Message.compressM (mkMessage (List.replicate 71 65) mtMANIFESTS)
        (fun _ => none) 100).bufferCompressed ≠ [] ∧
    ((mkMessage (List.replicate 71 65) mtMANIFESTS).getBuffer Compressed.On
        (fun _ => none) 100).1 ≠
      (mkMessage (List.replicate 71 65) mtMANIFESTS).buffer := by decide

/-- C10: the `compression::compress` / `compression::decompress` wrappers
are total at their interface: every internal failure — an algorithm other
than LZ4, an oversized input, a failing `LZ4F_compressFrame`, a failing
varint header read, or an LZ4 decoder that always errors — produces the
return value `0` (the catch-all handler), never an escaping exception. -/
theorem c10_wrappers_fail_to_zero :
    (∀ payload frameFn bound bufC algorithm, algorithm ≠ algLZ4 →
      (compressionCompress payload frameFn bound bufC algorithm).2 = 0) ∧
    (∀ (payload : List Nat) frameFn bound bufC, payload.length > 0xFFFFFFFF →
      (compressionCompress payload frameFn bound bufC algLZ4).2 = 0) ∧
    (∀ payload frameFn bound bufC, frameFn payload = none →
      (compressionCompress payload frameFn bound bufC algLZ4).2 = 0) ∧
    (∀ lz4d s inSize algorithm, algorithm ≠ algLZ4 →
      compressionDecompress lz4d s inSize algorithm = 0) ∧
    (∀ lz4d s inSize, getOriginalSize s = none →
      compressionDecompress lz4d s inSize algLZ4 = 0) ∧
    (∀ (lz4d : List Nat → Nat → Option (Nat × Nat)) s inSize,
      (∀ chunk cap, lz4d chunk cap = none) →
      compressionDecompress lz4d s inSize algLZ4 = 0) := by
  refine ⟨?_, ?_, ?_, ?_, ?_, ?_⟩
  · intro payload frameFn bound bufC algorithm halg
    unfold compressionCompress
    rw [if_neg halg]
  · intro payload frameFn bound bufC hlen
    unfold compressionCompress lz4fCompress
    rw [if_pos rfl, if_pos hlen]
  · intro payload frameFn bound bufC hframe
    unfold compressionCompress lz4fCompress
    rw [if_pos rfl]
    by_cases hlen : payload.length > 0xFFFFFFFF
    · rw [if_pos hlen]
    · rw [if_neg hlen, hframe]
  · intro lz4d s inSize algorithm halg
    unfold compressionDecompress
    rw [if_neg halg]
  · intro lz4d s inSize hsz
    unfold compressionDecompress lz4fDecompress
    rw [if_pos rfl, hsz]
  · intro lz4d s inSize hd
    unfold compressionDecompress lz4fDecompress
    rw [if_pos rfl]
    rcases hos : getOriginalSize s with _ | ⟨originalSize, s'⟩
    · simp only [hos]
    · simp only [hos]
      rw [lz4fDecompressLoop.eq_def]
      by_cases h0 : (0 : Nat) = originalSize
      · rw [if_pos h0, ← h0]
      · rw [if_neg h0]
        rcases hnc : nextChunk s' inSize [] [] with _ | ⟨chunk, s'', buffer2⟩
        · simp only [hnc]
        · simp only [hnc, hd chunk (originalSize - 0)]

/-- Witness for C10: each failure mode at a concrete input. -/
theorem c10_witness :
    (compressionCompress [1] (fun _ => some []) 0 [] 0).2 = 0 ∧
    (compressionCompress (List.replicate 4294967296 0) (fun _ => some []) 0 [] algLZ4).2 = 0 ∧
    (compressionCompress [1, 2] (fun _ => none) 5 [] algLZ4).2 = 0 ∧
    compressionDecompress (fun _ _ => none) ⟨[], 0⟩ 0 0 = 0 ∧
    compressionDecompress (fun _ _ => some (1, 1)) ⟨[], 0⟩ 7 algLZ4 = 0 ∧
    compressionDecompress (fun _ _ => none) ⟨[[5, 9, 9, 9, 9, 9, 9]], 0⟩ 7 algLZ4 = 0 :=
  ⟨c10_wrappers_fail_to_zero.1 [1] (fun _ => some []) 0 [] 0 (by decide),
   c10_wrappers_fail_to_zero.2.1 (List.replicate 4294967296 0) (fun _ => some []) 0 []
     (by rw [List.length_replicate]; norm_num),
   c10_wrappers_fail_to_zero.2.2.1 [1, 2] (fun _ => none) 5 [] rfl,
   c10_wrappers_fail_to_zero.2.2.2.1 (fun _ _ => none) ⟨[], 0⟩ 0 0 (by decide),
   c10_wrappers_fail_to_zero.2.2.2.2.1 (fun _ _ => some (1, 1)) ⟨[], 0⟩ 7 (by decide),
   c10_wrappers_fail_to_zero.2.2.2.2.2 (fun _ _ => none) ⟨[[5, 9, 9, 9, 9, 9, 9]], 0⟩ 7
     (fun _ _ => rfl)⟩

/-! ## Varint round-trip (C5) -/

theorem fin128_and128 : ∀ y : Fin 128, y.val &&& 128 = 0 := by decide

theorem fin128_or128_and128 : ∀ y : Fin 128, (y.val ||| 128) &&& 128 = 128 := by
  decide

theorem fin128_or128_and127 : ∀ y : Fin 128, (y.val ||| 128) &&& 127 = y.val := by
  decide

theorem fin128_and127 : ∀ y : Fin 128, y.val &&& 127 = y.val := by decide

theorem write_varint_length_pos (v : Nat) : 0 < (write_varint v).length := by
  rw [write_varint_eq]
  split <;> simp

theorem write_varint_lt_pow (v : Nat) : v < 127 ^ (write_varint v).length := by
  induction v using Nat.strong_induction_on with
  | _ v ih =>
    rw [write_varint_eq]
    by_cases h : v / 127 = 0
    · rw [if_pos h]
      simp only [List.length_singleton, pow_one]
      omega
    · rw [if_neg h]
      simp only [List.length_cons]
      have hv : 127 ≤ v := by
        rcases Nat.lt_or_ge v 127 with h' | h'
        · exact absurd (Nat.div_eq_of_lt h') h
        · exact h'
      have hIH : v / 127 < 127 ^ (write_varint (v / 127)).length :=
        ih (v / 127) (Nat.div_lt_self (by omega) (by omega))
      calc v < 127 * (v / 127 + 1) := by omega
        _ ≤ 127 * 127 ^ (write_varint (v / 127)).length := by
            exact Nat.mul_le_mul_left 127 (by omega)
        _ = 127 ^ ((write_varint (v / 127)).length + 1) := by
            rw [Nat.pow_succ, Nat.mul_comm]

theorem write_varint_pow_le (v : Nat) (hv : 0 < v) :
    127 ^ ((write_varint v).length - 1) ≤ v := by
  induction v using Nat.strong_induction_on with
  | _ v ih =>
    rw [write_varint_eq]
    by_cases h : v / 127 = 0
    · rw [if_pos h]
      simpa using hv
    · rw [if_neg h]
      simp only [List.length_cons, Nat.add_sub_cancel]
      have hv127 : 127 ≤ v := by
        rcases Nat.lt_or_ge v 127 with h' | h'
        · exact absurd (Nat.div_eq_of_lt h') h
        · exact h'
      have hIH : 127 ^ ((write_varint (v / 127)).length - 1) ≤ v / 127 :=
        ih (v / 127) (Nat.div_lt_self (by omega) (by omega)) (by omega)
      have hpos := write_varint_length_pos (v / 127)
      calc 127 ^ (write_varint (v / 127)).length
          = 127 ^ ((write_varint (v / 127)).length - 1) * 127 := by
            rw [← Nat.pow_succ]
            congr 1
            omega
        _ ≤ v / 127 * 127 := Nat.mul_le_mul_right 127 hIH
        _ ≤ v := Nat.div_mul_le_self v 127

theorem write_varint_getD_cont (v : Nat) :
    ∀ k, k + 1 < (write_varint v).length →
      (write_varint v).getD k 0 = (v / 127 ^ k % 127) ||| 0x80 := by
  induction v using Nat.strong_induction_on with
  | _ v ih =>
    intro k hk
    rw [write_varint_eq] at hk ⊢
    by_cases h : v / 127 = 0
    · rw [if_pos h] at hk
      simp at hk
    · rw [if_neg h] at hk ⊢
      have hv : 127 ≤ v := by
        rcases Nat.lt_or_ge v 127 with h' | h'
        · exact absurd (Nat.div_eq_of_lt h') h
        · exact h'
      match k with
      | 0 => simp
      | k + 1 =>
        rw [List.getD_cons_succ]
        simp only [List.length_cons] at hk
        rw [ih (v / 127) (Nat.div_lt_self (by omega) (by omega)) k (by omega)]
        congr 2
        rw [Nat.div_div_eq_div_mul, ← Nat.pow_succ']

theorem write_varint_getD_last (v : Nat) :
    (write_varint v).getD ((write_varint v).length - 1) 0 =
      v / 127 ^ ((write_varint v).length - 1) := by
  induction v using Nat.strong_induction_on with
  | _ v ih =>
    rw [write_varint_eq]
    by_cases h : v / 127 = 0
    · rw [if_pos h]
      simp only [List.length_singleton, Nat.sub_self, List.getD_cons_zero,
        pow_zero, Nat.div_one]
      omega
    · rw [if_neg h]
      have hv : 127 ≤ v := by
        rcases Nat.lt_or_ge v 127 with h' | h'
        · exact absurd (Nat.div_eq_of_lt h') h
        · exact h'
      have hpos := write_varint_length_pos (v / 127)
      simp only [List.length_cons, Nat.add_sub_cancel]
      obtain ⟨l', hl'⟩ : ∃ l', (write_varint (v / 127)).length = l' + 1 :=
        ⟨(write_varint (v / 127)).length - 1, by omega⟩
      rw [hl', List.getD_cons_succ]
      have := ih (v / 127) (Nat.div_lt_self (by omega) (by omega))
      rw [hl'] at this
      simp only [Nat.add_sub_cancel] at this
      rw [this, Nat.div_div_eq_div_mul, ← Nat.pow_succ']

/-- The scan loop lands on index `l - 1` when bytes `0 .. l-2` carry the
continuation bit, byte `l - 1` does not, and `l ≤ buflen`. -/
theorem scanEnd_spec (buf : List Nat) (buflen l : Nat)
    (hl : 0 < l) (hlen : l ≤ buflen)
    (hcont : ∀ k, k + 1 < l → buf.getD k 0 &&& 0x80 ≠ 0)
    (hlast : buf.getD (l - 1) 0 &&& 0x80 = 0) :
    ∀ d j, l - 1 - j = d → j < l → scanEnd buf buflen j = some (l - 1) := by
  intro d
  induction d with
  | zero =>
    intro j hd hj
    have hj' : j = l - 1 := by omega
    subst hj'
    rw [scanEnd_eq, if_neg (by simpa using hlast)]
  | succ d ihd =>
    intro j hd hj
    have hjlt : j + 1 < l := by omega
    rw [scanEnd_eq, if_pos (hcont j hjlt), if_neg (by omega)]
    exact ihd (j + 1) (by omega) (by omega)

/-- The accumulation loop recovers `v` from its base-127 digits: with the
digit of weight `127 ^ k` at index `k`, the accumulator holds `v / 127 ^ k`
after the digits above index `k` were folded in. -/
theorem readLoop_inv (buf : List Nat) (v l : Nat)
    (hv : v < 2 ^ 32) (hpos : 0 < v) (hl : 0 < l)
    (hdig : ∀ k, k < l → buf.getD k 0 &&& 0x7f = v / 127 ^ k % 127)
    (hlt : v < 127 ^ l) (hge : 127 ^ (l - 1) ≤ v) :
    ∀ k, k ≤ l → readLoop buf k (v / 127 ^ k) = some v := by
  intro k
  induction k with
  | zero =>
    intro _
    rw [pow_zero, Nat.div_one, readLoop]
  | succ k ihk =>
    intro hkl
    rw [readLoop]
    have hd : buf.getD k 0 &&& 0x7f = v / 127 ^ k % 127 := hdig k (by omega)
    have e1 : v / 127 ^ (k + 1) = v / 127 ^ k / 127 := by
      rw [Nat.pow_succ, ← Nat.div_div_eq_div_mul]
    have hdiv : v / 127 ^ (k + 1) * 127 + v / 127 ^ k % 127 = v / 127 ^ k := by
      rw [e1]
      exact Nat.div_add_mod' (v / 127 ^ k) 127
    have hself : v / 127 ^ k ≤ v := Nat.div_le_self v _
    have hm : v / 127 ^ k % 127 < 127 := Nat.mod_lt _ (by omega)
    have hge' : 127 ^ k ≤ v :=
      le_trans (Nat.pow_le_pow_right (by omega) (by omega)) hge
    have hq : 1 ≤ v / 127 ^ k :=
      (Nat.one_le_div_iff (Nat.pos_pow_of_pos k (by omega))).2 hge'
    have hlt' : v / 127 ^ (k + 1) < v / 127 ^ k := by
      rw [e1]
      exact Nat.div_lt_self (by omega) (by omega)
    simp only [hd]
    rw [Nat.mod_eq_of_lt (by omega), hdiv, if_neg (by omega)]
    exact ihk (by omega)

/-- C5: for every `v < 2 ^ 32`, reading back the bytes written by
`write_varint` (with any trailing bytes and any sufficient `buflen`)
yields `v` again and consumes exactly the bytes `write_varint` produced. -/
theorem c5_varint_roundtrip (v : Nat) (rest : List Nat) (buflen : Nat)
    (hv : v < 2 ^ 32) (hlen : (write_varint v).length ≤ buflen) :
    read_varint (write_varint v ++ rest) buflen =
      some ((write_varint v).length, v) := by
  have hlpos : 0 < (write_varint v).length := write_varint_length_pos v
  have hgetD : ∀ k, k < (write_varint v).length →
      (write_varint v ++ rest).getD k 0 = (write_varint v).getD k 0 := by
    intro k hk
    exact List.getD_append _ _ _ _ (by omega)
  have hdigit_lt : ∀ k, v / 127 ^ k % 127 < 128 := by
    intro k
    have := Nat.mod_lt (v / 127 ^ k) (show 127 > 0 by omega)
    omega
  have hpow : 127 ^ (write_varint v).length =
      127 ^ ((write_varint v).length - 1) * 127 := by
    rw [← Nat.pow_succ]
    congr 1
    omega
  have hlast_lt : v / 127 ^ ((write_varint v).length - 1) < 127 := by
    have hlt := write_varint_lt_pow v
    rw [Nat.div_lt_iff_lt_mul (Nat.pos_pow_of_pos _ (by omega))]
    omega
  have hcont : ∀ k, k + 1 < (write_varint v).length →
      (write_varint v ++ rest).getD k 0 &&& 0x80 ≠ 0 := by
    intro k hk
    rw [hgetD k (by omega), write_varint_getD_cont v k hk]
    rw [fin128_or128_and128 ⟨v / 127 ^ k % 127, hdigit_lt k⟩]
    omega
  have hlast : (write_varint v ++ rest).getD ((write_varint v).length - 1) 0 &&& 0x80 = 0 := by
    rw [hgetD _ (by omega), write_varint_getD_last v]
    exact fin128_and128 ⟨v / 127 ^ ((write_varint v).length - 1), by omega⟩
  have hscan : scanEnd (write_varint v ++ rest) buflen 0 =
      some ((write_varint v).length - 1) :=
    scanEnd_spec (write_varint v ++ rest) buflen (write_varint v).length hlpos hlen
      hcont hlast ((write_varint v).length - 1) 0 (by omega) (by omega)
  have hl1 : (write_varint v).length - 1 + 1 = (write_varint v).length := by omega
  simp only [read_varint, hscan, hl1]
  rw [if_neg (by omega)]
  by_cases hv0 : v = 0
  · subst hv0
    have hl_eq : (write_varint 0).length = 1 := by
      rw [write_varint_eq]
      norm_num
    rw [if_pos]
    · rw [hl_eq]
    · refine ⟨by omega, ?_⟩
      rw [hgetD 0 (by omega)]
      have h0 := write_varint_getD_last 0
      rw [hl_eq] at h0
      simpa using h0
  · rw [if_neg]
    · have hdig : ∀ k, k < (write_varint v).length →
          (write_varint v ++ rest).getD k 0 &&& 0x7f = v / 127 ^ k % 127 := by
        intro k hk
        rw [hgetD k hk]
        by_cases hk1 : k + 1 < (write_varint v).length
        · rw [write_varint_getD_cont v k hk1]
          exact fin128_or128_and127 ⟨v / 127 ^ k % 127, hdigit_lt k⟩
        · have hk_eq : k = (write_varint v).length - 1 := by omega
          subst hk_eq
          rw [write_varint_getD_last v]
          have h1 := fin128_and127 ⟨v / 127 ^ ((write_varint v).length - 1), by omega⟩
          rw [h1]
          exact (Nat.mod_eq_of_lt hlast_lt).symm
      have hlt : v < 127 ^ (write_varint v).length := write_varint_lt_pow v
      have hge : 127 ^ ((write_varint v).length - 1) ≤ v :=
        write_varint_pow_le v (by omega)
      have hzero : v / 127 ^ (write_varint v).length = 0 := Nat.div_eq_of_lt hlt
      have hloop := readLoop_inv (write_varint v ++ rest) v (write_varint v).length
        hv (by omega) hlpos hdig hlt hge (write_varint v).length (le_refl _)
      rw [hzero] at hloop
      rw [hloop]
    · intro hcontra
      obtain ⟨hl_eq, hbyte⟩ := hcontra
      have hl_eq' : (write_varint v).length = 1 := by omega
      rw [hgetD 0 (by omega)] at hbyte
      have h0 := write_varint_getD_last v
      rw [hl_eq'] at h0
      simp only [Nat.sub_self, pow_zero, Nat.div_one] at h0
      rw [h0] at hbyte
      exact hv0 hbyte

/-- Witness for C5 at `v = 200` (two varint bytes). -/
theorem c5_witness :
    read_varint (write_varint 200 ++ [7, 7]) 5 =
      some ((write_varint 200).length, 200) :=
  c5_varint_roundtrip 200 [7, 7] 5 (by norm_num) (by decide)

/-! ## Outbound compressed framing (C6) -/

theorem mkMessage_buffer_length (p : List Nat) (t : Nat) :
    (mkMessage p t).buffer.length = 6 + p.length := by
  simp [mkMessage, setHeader]
  omega

theorem mkMessage_buffer_drop (p : List Nat) (t : Nat) :
    (mkMessage p t).buffer.drop 6 = p := by
  unfold mkMessage
  exact List.drop_left' (setHeader_length _ _ _ _)

theorem getType_mkMessage (p : List Nat) (t : Nat) (ht : t < 65536) :
    getType (mkMessage p t).buffer = t := by
  unfold getType mkMessage setHeader
  simp only [List.cons_append, List.nil_append, List.getD_cons_zero,
    List.getD_cons_succ]
  rw [and255, and255, Nat.shiftRight_eq_div_pow, Nat.shiftLeft_eq]
  omega

/-- The buffer state and return value of `lz4fCompress` on an empty initial
compressed buffer: header scratch space (6 zero bytes), the varint, then
either `bound` scratch bytes (frame error) or the frame and the leftover
scratch. -/
theorem lz4fCompress_spec (p : List Nat) (frameFn : List Nat → Option (List Nat))
    (bound : Nat) (hlen : ¬ p.length > 0xFFFFFFFF) :
    (frameFn p = none →
      lz4fCompress p frameFn bound [] =
        ((List.replicate 6 0 ++ write_varint p.length) ++ List.replicate bound 0,
          none)) ∧
    (∀ frame, frameFn p = some frame → frame.length ≤ bound →
      lz4fCompress p frameFn bound [] =
        (((List.replicate 6 0 ++ write_varint p.length) ++ frame) ++
            List.replicate (bound - frame.length) 0,
          some ((write_varint p.length).length + frame.length))) := by
  have hbuf1 : resizeList [] ((write_varint p.length).length + bound + 6) =
      List.replicate ((write_varint p.length).length + bound + 6) 0 := by
    simp [resizeList]
  have hbuf2 :
      writeAt (List.replicate ((write_varint p.length).length + bound + 6) 0) 6
          (write_varint p.length) =
        (List.replicate 6 0 ++ write_varint p.length) ++ List.replicate bound 0 := by
    unfold writeAt
    rw [List.take_replicate, List.drop_replicate]
    have h1 : min 6 ((write_varint p.length).length + bound + 6) = 6 := by omega
    have h2 : (write_varint p.length).length + bound + 6 -
        (6 + (write_varint p.length).length) = bound := by omega
    rw [h1, h2, List.append_assoc]
  constructor
  · intro hnone
    simp only [lz4fCompress]
    rw [if_neg hlen, hbuf1, hbuf2, hnone]
  · intro frame hsome hfb
    simp only [lz4fCompress]
    rw [if_neg hlen, hbuf1, hbuf2, hsome]
    dsimp only
    have hlen2 : ((List.replicate 6 0 ++ write_varint p.length)).length =
        6 + (write_varint p.length).length := by
      simp
      omega
    have htake :
        ((List.replicate 6 0 ++ write_varint p.length) ++
            List.replicate bound 0).take (6 + (write_varint p.length).length) =
          List.replicate 6 0 ++ write_varint p.length :=
      List.take_left' hlen2
    have hdrop :
        ((List.replicate 6 0 ++ write_varint p.length) ++
            List.replicate bound 0).drop
            (6 + (write_varint p.length).length + frame.length) =
          List.replicate (bound - frame.length) 0 := by
      rw [show 6 + (write_varint p.length).length + frame.length =
        ((List.replicate 6 0 ++ write_varint p.length)).length + frame.length
        by omega]
      rw [List.drop_append, List.drop_replicate]
    unfold writeAt
    rw [htake, hdrop, List.append_assoc]

theorem resizeList_eq_take (l : List Nat) (n : Nat) (h : n ≤ l.length) :
    resizeList l n = l.take n := by
  unfold resizeList
  rw [Nat.sub_eq_zero_of_le h]
  simp

theorem writeAt_zero (l src : List Nat) :
    writeAt l 0 src = src ++ l.drop src.length := by
  unfold writeAt
  simp

theorem compressM_buffer (m : Message) (frameFn : List Nat → Option (List Nat))
    (bound : Nat) : (Message.compressM m frameFn bound).buffer = m.buffer := by
  unfold Message.compressM
  dsimp only
  split
  · rfl
  · split
    · split <;> rfl
    · rfl

/-- When `compress` leaves the compressed buffer empty, `getBuffer(On)` falls
back to the uncompressed buffer. -/
theorem getBuffer_on_of_empty (m : Message)
    (frameFn : List Nat → Option (List Nat)) (bound : Nat)
    (hA : m.alreadyRequested = false)
    (hempty : (Message.compressM m frameFn bound).bufferCompressed = []) :
    (m.getBuffer Compressed.On frameFn bound).1 =
      (m.getBuffer Compressed.Off frameFn bound).1 := by
  unfold Message.getBuffer
  rw [if_neg (by decide), if_pos rfl, hA]
  simp only [Bool.false_eq_true, if_false, hempty, List.length_nil]
  rw [if_neg (by omega), compressM_buffer]

/-- C6: after compression is attempted on a freshly constructed message, the
stored compressed buffer is a full framed message — six header bytes that
parse with `compressed = true`, `algorithm = LZ4`, the compressed size and
the type — exactly when the reported compressed size is strictly smaller
than the payload; otherwise `bufferCompressed` is cleared and
`getBuffer(On)` returns the `compress = Off` encoding. -/
theorem c6_compressed_encoding (t : Nat) (p : List Nat)
    (frameFn : List Nat → Option (List Nat)) (bound : Nat)
    (ht : t < 65536) (hp : 0 < p.length) (hsz : p.length ≤ 0x03FFFFFF)
    (hb : ∀ f, frameFn p = some f → f.length ≤ bound) :
    if compressible t p.length = true ∧
        (compressionCompress p frameFn bound [] algLZ4).2 < p.length then
      ∃ cp, (Message.compressM (mkMessage p t) frameFn bound).bufferCompressed =
          setHeader (compressionCompress p frameFn bound [] algLZ4).2 t
            Compressed.On algLZ4 ++ cp ∧
        cp.length = (compressionCompress p frameFn bound [] algLZ4).2 ∧
        parseMessageHeader
          (Message.compressM (mkMessage p t) frameFn bound).bufferCompressed
          (Message.compressM (mkMessage p t) frameFn bound).bufferCompressed.length =
          some ⟨6 + (compressionCompress p frameFn bound [] algLZ4).2, 6,
            (compressionCompress p frameFn bound [] algLZ4).2, t, true, 1⟩
    else
      (Message.compressM (mkMessage p t) frameFn bound).bufferCompressed = [] ∧
      ((mkMessage p t).getBuffer Compressed.On frameFn bound).1 =
        ((mkMessage p t).getBuffer Compressed.Off frameFn bound).1 := by
  have hu32 : ¬ p.length > 0xFFFFFFFF := by omega
  have hA : (mkMessage p t).alreadyRequested = false := rfl
  have hbc0 : (mkMessage p t).bufferCompressed = [] := rfl
  have hmb : (mkMessage p t).buffer.length - 6 = p.length := by
    rw [mkMessage_buffer_length]
    omega
  have htyp := getType_mkMessage p t ht
  have hdropp := mkMessage_buffer_drop p t
  have hredM : Message.compressM (mkMessage p t) frameFn bound =
      (if compressible t p.length then
        (if (compressionCompress p frameFn bound [] algLZ4).2 < p.length then
          { mkMessage p t with
            bufferCompressed :=
              writeAt (resizeList (compressionCompress p frameFn bound [] algLZ4).1
                (6 + (compressionCompress p frameFn bound [] algLZ4).2)) 0
                (setHeader (compressionCompress p frameFn bound [] algLZ4).2 t
                  Compressed.On algLZ4)
            alreadyRequested := true }
        else
          { mkMessage p t with
            bufferCompressed :=
              resizeList (compressionCompress p frameFn bound [] algLZ4).1 0
            alreadyRequested := true })
      else { mkMessage p t with alreadyRequested := true }) := by
    unfold Message.compressM
    rw [if_neg (by rw [hA]; simp), hmb, htyp, hdropp, hbc0]
    dsimp only
    rw [hbc0]
  by_cases hcomp : compressible t p.length = true
  · rcases hf : frameFn p with _ | frame
    · -- LZ4F_compressFrame fails: the wrapper reports 0, which still counts
      -- as "strictly smaller", and a header-only frame is stored.
      have hr : compressionCompress p frameFn bound [] algLZ4 =
          ((List.replicate 6 0 ++ write_varint p.length) ++ List.replicate bound 0,
            0) := by
        unfold compressionCompress
        rw [if_pos rfl, (lz4fCompress_spec p frameFn bound hu32).1 hf]
      rw [if_pos (by rw [hr]; exact ⟨hcomp, hp⟩)]
      rw [hredM, if_pos hcomp, hr, if_pos (by simpa using hp)]
      simp only
      have hresize :
          resizeList ((List.replicate 6 0 ++ write_varint p.length) ++
            List.replicate bound 0) (6 + 0) =
          List.replicate 6 0 := by
        rw [resizeList_eq_take _ _ (by simp)]
        rw [List.take_append_of_le_length (by simp)]
        rw [List.take_append_of_le_length (by simp)]
        simp
      rw [hresize, writeAt_zero]
      rw [show (setHeader 0 t Compressed.On algLZ4).length = 6 from rfl]
      rw [show (List.replicate 6 0 : List Nat).drop 6 = [] by simp]
      refine ⟨[], by simp, by simp, ?_⟩
      have hplen : (setHeader 0 t Compressed.On algLZ4 ++ ([] : List Nat)).length = 6 := by
        simp [setHeader]
      rw [List.append_nil, show (setHeader 0 t Compressed.On algLZ4).length = 6 from rfl]
      have := parseMessageHeader_setHeader_on 0 t [] 6 (by norm_num) ht (by omega)
      rw [List.append_nil] at this
      simpa using this
    · have hfb := hb frame hf
      have hr : compressionCompress p frameFn bound [] algLZ4 =
          ((((List.replicate 6 0 ++ write_varint p.length) ++ frame) ++
              List.replicate (bound - frame.length) 0),
            (write_varint p.length).length + frame.length) := by
        unfold compressionCompress
        rw [if_pos rfl, (lz4fCompress_spec p frameFn bound hu32).2 frame hf hfb]
      by_cases hc : (write_varint p.length).length + frame.length < p.length
      · rw [if_pos (by rw [hr]; exact ⟨hcomp, hc⟩)]
        rw [hredM, if_pos hcomp, hr, if_pos (by simpa using hc)]
        simp only
        have hlen1 : ((List.replicate 6 0 ++ write_varint p.length) ++ frame).length =
            6 + ((write_varint p.length).length + frame.length) := by
          simp
          omega
        have hresize :
            resizeList (((List.replicate 6 0 ++ write_varint p.length) ++ frame) ++
              List.replicate (bound - frame.length) 0)
              (6 + ((write_varint p.length).length + frame.length)) =
            (List.replicate 6 0 ++ write_varint p.length) ++ frame := by
          rw [resizeList_eq_take _ _ (by simp; omega)]
          exact List.take_left' hlen1
        rw [hresize, writeAt_zero]
        rw [show (setHeader ((write_varint p.length).length + frame.length) t
          Compressed.On algLZ4).length = 6 from rfl]
        have hdrop6 : ((List.replicate 6 0 ++ write_varint p.length) ++ frame).drop 6 =
            write_varint p.length ++ frame := by
          rw [List.append_assoc]
          exact List.drop_left' (by simp)
        rw [hdrop6]
        refine ⟨write_varint p.length ++ frame, rfl, by simp, ?_⟩
        have hsz2 : (write_varint p.length).length + frame.length ≤ 0x03FFFFFF := by
          omega
        have hlen3 : (setHeader ((write_varint p.length).length + frame.length) t
            Compressed.On algLZ4 ++ (write_varint p.length ++ frame)).length =
            6 + ((write_varint p.length).length + frame.length) := by
          simp [setHeader]
          omega
        rw [hlen3]
        exact parseMessageHeader_setHeader_on _ t _ _ hsz2 ht (by omega)
      · rw [if_neg (by rw [hr]; simp only; omega)]
        have hempty : (Message.compressM (mkMessage p t) frameFn bound).bufferCompressed = [] := by
          rw [hredM, if_pos hcomp, hr, if_neg (by simpa using hc)]
          simp [resizeList]
        exact ⟨hempty, getBuffer_on_of_empty _ _ _ hA hempty⟩
  · rw [if_neg (by intro hx; exact hcomp hx.1)]
    have hempty : (Message.compressM (mkMessage p t) frameFn bound).bufferCompressed = [] := by
      rw [hredM, if_neg hcomp]
      exact hbc0
    exact ⟨hempty, getBuffer_on_of_empty _ _ _ hA hempty⟩

/-- Witness for C6: type 2 (manifests), 71-byte payload, a codec producing
a 3-byte frame — the stored buffer is the 6-byte compressed header followed
by the 1-byte varint and the frame. -/
theorem c6_witness :
    if compressible 2 (List.replicate 71 65).length = true ∧
        (compressionCompress (List.replicate 71 65) (fun _ => some [9, 9, 9]) 100 []
          algLZ4).2 < (List.replicate 71 65).length then
      ∃ cp, (Message.compressM (mkMessage (List.replicate 71 65) 2)
            (fun _ => some [9, 9, 9]) 100).bufferCompressed =
          setHeader (compressionCompress (List.replicate 71 65)
              (fun _ => some [9, 9, 9]) 100 [] algLZ4).2 2 Compressed.On algLZ4 ++ cp ∧
        cp.length = (compressionCompress (List.replicate 71 65)
            (fun _ => some [9, 9, 9]) 100 [] algLZ4).2 ∧
        parseMessageHeader
          (Message.compressM (mkMessage (List.replicate 71 65) 2)
            (fun _ => some [9, 9, 9]) 100).bufferCompressed
          (Message.compressM (mkMessage (List.replicate 71 65) 2)
            (fun _ => some [9, 9, 9]) 100).bufferCompressed.length =
          some ⟨6 + (compressionCompress (List.replicate 71 65)
              (fun _ => some [9, 9, 9]) 100 [] algLZ4).2, 6,
            (compressionCompress (List.replicate 71 65)
              (fun _ => some [9, 9, 9]) 100 [] algLZ4).2, 2, true, 1⟩
    else
      (Message.compressM (mkMessage (List.replicate 71 65) 2)
        (fun _ => some [9, 9, 9]) 100).bufferCompressed = [] ∧
      ((mkMessage (List.replicate 71 65) 2).getBuffer Compressed.On
          (fun _ => some [9, 9, 9]) 100).1 =
        ((mkMessage (List.replicate 71 65) 2).getBuffer Compressed.Off
          (fun _ => some [9, 9, 9]) 100).1 :=
  c6_compressed_encoding 2 (List.replicate 71 65) (fun _ => some [9, 9, 9]) 100
    (by norm_num) (by simp) (by simp) (fun f hf => by
      simp only [Option.some.injEq] at hf
      subst hf
      norm_num)

/-! ## Stream cursor after the varint header (C9) -/

theorem streamNext_some (s : ZeroCopyStream)
    (h : s.pos < (streamData s).length) :
    ∃ data s', streamNext s = some (data, s') := by
  unfold streamNext
  obtain ⟨b, hb⟩ := nextBoundary_some h
  rw [hb]
  exact ⟨_, _, rfl⟩

theorem scanEnd_congr (a b : List Nat) (buflen : Nat)
    (h : ∀ k, k < buflen → a.getD k 0 = b.getD k 0) :
    ∀ d j, buflen - j = d → j < buflen → scanEnd a buflen j = scanEnd b buflen j := by
  intro d
  induction d with
  | zero =>
    intro j hd hj
    omega
  | succ d ihd =>
    intro j hd hj
    rw [scanEnd_eq a buflen j, scanEnd_eq b buflen j, h j hj]
    by_cases hcont : b.getD j 0 &&& 0x80 ≠ 0
    · rw [if_pos hcont, if_pos hcont]
      by_cases hge : j + 1 ≥ buflen
      · rw [if_pos hge, if_pos hge]
      · rw [if_neg hge, if_neg hge]
        exact ihd (j + 1) (by omega) (by omega)
    · rw [if_neg hcont, if_neg hcont]

theorem readLoop_congr (a b : List Nat) (buflen : Nat)
    (h : ∀ k, k < buflen → a.getD k 0 = b.getD k 0) :
    ∀ k, k ≤ buflen → ∀ t, readLoop a k t = readLoop b k t := by
  intro k
  induction k with
  | zero => intro _ t; rfl
  | succ k ihk =>
    intro hk t
    rw [readLoop, readLoop, h k (by omega)]
    split
    · rfl
    · exact ihk (by omega) _

theorem read_varint_congr (a b : List Nat) (buflen : Nat) (hpos : 0 < buflen)
    (h : ∀ k, k < buflen → a.getD k 0 = b.getD k 0) :
    read_varint a buflen = read_varint b buflen := by
  unfold read_varint
  rw [scanEnd_congr a b buflen h (buflen - 0) 0 rfl hpos]
  rcases hsc : scanEnd b buflen 0 with _ | last
  · rfl
  · dsimp only
    by_cases hover : last + 1 > buflen
    · rw [if_pos hover, if_pos hover]
    · rw [if_neg hover, if_neg hover, h 0 hpos]
      split
      · rfl
      · rw [readLoop_congr a b buflen h (last + 1) (by omega) 0]

/-- Backing up a list of counts subtracts their sum from the cursor. -/
theorem foldl_backUp (us : List Nat) :
    ∀ s : ZeroCopyStream, us.foldl (fun st n => streamBackUp st n) s =
      ⟨s.chunks, s.pos - us.sum⟩ := by
  induction us with
  | nil => intro s; rfl
  | cons u us ih =>
    intro s
    rw [List.foldl_cons, ih]
    unfold streamBackUp
    simp only [List.sum_cons, ZeroCopyStream.mk.injEq, true_and]
    omega

/-- `copyStream` succeeds when the stream holds `size` more bytes: it copies
the next `size` bytes, records segment lengths summing to the cursor
advance (which covers `size`), and does not change the segmentation. -/
theorem copyStream_zero (s : ZeroCopyStream) : copyStream s 0 = ([], [], s, true) := by
  rw [copyStream_eq, if_pos rfl]

theorem copyStream_spec :
    ∀ size s, s.pos + size ≤ (streamData s).length →
      ∃ us s', copyStream s size =
          (((streamData s).drop s.pos).take size, us, s', true) ∧
        s'.chunks = s.chunks ∧ s'.pos = s.pos + us.sum ∧ size ≤ us.sum := by
  intro size
  induction size using Nat.strong_induction_on with
  | _ size ih =>
    intro s hsz
    rw [copyStream_eq]
    by_cases h0 : size = 0
    · subst h0
      exact ⟨[], s, by simp, rfl, by simp, by omega⟩
    · rw [if_neg h0]
      obtain ⟨data, s1, hn⟩ := streamNext_some s (by omega)
      obtain ⟨hdata, hchunks, hlt, hle, hlen⟩ := streamNext_eq hn
      rw [hn]
      dsimp only
      have hD : streamData s1 = streamData s := by
        unfold streamData
        rw [hchunks]
      by_cases hge : data.length ≥ size
      · rw [if_pos hge, show size - size = 0 from by omega, copyStream_zero]
        refine ⟨[data.length], s1, ?_, hchunks,
          by simp only [List.sum_cons, List.sum_nil]; omega,
          by simp only [List.sum_cons, List.sum_nil]; omega⟩
        simp only [List.append_nil]
        rw [hdata, List.take_take, show min size (s1.pos - s.pos) = size from by omega]
      · rw [if_neg hge]
        have hrec := ih (size - data.length) (by omega) s1 (by rw [hD]; omega)
        obtain ⟨us, s', hcopy, hchunks', hpos', hsum⟩ := hrec
        refine ⟨data.length :: us, s', ?_, by rw [hchunks', hchunks],
          by simp only [List.sum_cons]; omega, by simp only [List.sum_cons]; omega⟩
        rw [hcopy]
        simp only [Prod.mk.injEq, and_true, true_and]
        rw [List.take_length, hD, hdata]
        have hdd : (streamData s).drop s1.pos =
            (((streamData s).drop s.pos).drop (s1.pos - s.pos)) := by
          rw [List.drop_drop]
          congr 1
          omega
        rw [hdd, ← List.take_add]
        congr 1
        rw [hlen] at hge
        simp only [List.length_take, List.length_drop]
        omega

theorem sum_reverse_nat (l : List Nat) : l.reverse.sum = l.sum := by
  induction l with
  | nil => rfl
  | cons x xs ih =>
    simp [List.sum_append, ih]
    omega

/-- C9: for every segmentation of an input stream whose first five bytes
hold a well-formed varint (and which is at least `varint_max = 5` bytes
long), `getOriginalSize` returns the varint's value and leaves the cursor
exactly past the varint: every segment length consumed while peeking is
backed up and exactly the varint's byte count is skipped. -/
theorem c9_cursor_after_varint (chunks : List (List Nat)) (used v : Nat)
    (hvarint : read_varint (chunks.flatten.take 5) 5 = some (used, v))
    (h5 : 5 ≤ chunks.flatten.length) :
    getOriginalSize ⟨chunks, 0⟩ = some (v, ⟨chunks, used⟩) := by
  have hD0 : streamData ⟨chunks, 0⟩ = chunks.flatten := rfl
  obtain ⟨data, s1, hn⟩ := streamNext_some ⟨chunks, 0⟩
    (by rw [hD0]; show 0 < chunks.flatten.length; omega)
  obtain ⟨hdata, hchunks, hlt, hle, hlen⟩ := streamNext_eq hn
  rw [hD0] at hdata hle
  simp only [List.drop_zero, Nat.sub_zero] at hdata hlt hlen
  have hD1 : streamData s1 = chunks.flatten := by
    unfold streamData
    rw [hchunks]
  unfold getOriginalSize
  rw [hn]
  dsimp only
  by_cases hlt5 : data.length < 5
  · rw [if_pos hlt5]
    obtain ⟨us, s2, hcopy, hch2, hpos2, hsum2⟩ :=
      copyStream_spec (5 - data.length) s1 (by rw [hD1]; omega)
    rw [hcopy]
    dsimp only
    rw [if_pos rfl]
    have hp : data ++ ((streamData s1).drop s1.pos).take (5 - data.length) =
        chunks.flatten.take 5 := by
      rw [hD1, hlen, hdata, ← List.take_add]
      congr 1
      omega
    dsimp only
    rw [hp, hvarint]
    dsimp only
    rw [foldl_backUp]
    unfold streamSkip
    simp only [Option.some.injEq, Prod.mk.injEq, true_and,
      ZeroCopyStream.mk.injEq]
    refine ⟨by rw [hch2, hchunks], ?_⟩
    rw [sum_reverse_nat, List.sum_cons]
    omega
  · rw [if_neg hlt5]
    dsimp only
    have hcong : read_varint data 5 = read_varint (chunks.flatten.take 5) 5 := by
      apply read_varint_congr _ _ 5 (by omega)
      intro k hk
      rw [hdata]
      simp only [List.getD_eq_getElem?_getD]
      rw [List.getElem?_take_of_lt (by omega), List.getElem?_take_of_lt (by omega)]
    rw [hcong, hvarint]
    dsimp only
    rw [foldl_backUp]
    unfold streamSkip
    simp only [Option.some.injEq, Prod.mk.injEq, true_and,
      ZeroCopyStream.mk.injEq]
    refine ⟨hchunks, ?_⟩
    rw [sum_reverse_nat, List.sum_cons]
    simp only [List.sum_nil]
    omega

/-- Witness for C9: varint `200` (two bytes) split across two segments. -/
theorem c9_witness :
    getOriginalSize ⟨[[201], [1, 7, 7, 7, 7]], 0⟩ =
      some (200, ⟨[[201], [1, 7, 7, 7, 7]], 2⟩) :=
  c9_cursor_after_varint [[201], [1, 7, 7, 7, 7]] 2 200 (by decide) (by decide)

end Ripple
